import Mathlib

/-!
# Verification of the regionmask point-in-polygon rasterization core

The repository snapshot at hand ships the documentation of regionmask
(changelog, method/overlap/mask notebooks) but not the Python files of
`regionmask/core`.  The definitions below therefore embed the core mask
pipeline as described by the specification and the in-repo documentation:
coordinates are rational numbers, polygons are lists of vertices, and the
two rasterization backends are modelled as executable functions.
-/

namespace Regionmask

/-- A query point or polygon vertex: (longitude, latitude). -/
abbrev Point : Type := ℚ × ℚ

/-- A ring of a polygon, given by its list of vertices.  The ring is closed
implicitly: there is an edge from the last vertex back to the first. -/
structure Ring where
  vertices : List Point

/-- The edges of a ring: consecutive vertex pairs, including the closing
edge from the last vertex back to the first. -/
def Ring.edges (r : Ring) : List (Point × Point) :=
  r.vertices.zip (r.vertices.rotate 1)

/-- Modelled from the spec: a region outline is one exterior ring plus zero
or more interior (hole) rings; a point is in the polygon iff it is inside
the exterior and outside every hole (spec 4.3 and 4.4). -/
structure Polygon where
  exterior : Ring
  interiors : List Ring

/-- Modelled from the spec: the tiny offset subtracted from lon and lat to
obtain a deterministic edge behaviour (documented value 10 ^ -9 degrees,
spec 4.1 and whats_new v0.5.0). -/
def EPSILON : ℚ := 1 / 10 ^ 9

/-- Modelled from the spec: the nudge applied to latitudes exactly at the
south pole (documented value 10 ^ -10, method notebook). -/
def POLE_NUDGE : ℚ := 1 / 10 ^ 10

/-- Subtract the edge-behaviour offset from both coordinates (spec 4.1). -/
def adjust (p : Point) : Point := (p.1 - EPSILON, p.2 - EPSILON)

/-- Does the edge `e` cross the horizontal scan line at height `y`?  The
half-open convention counts an edge iff exactly one endpoint is at or below
the line, which makes the crossing count of a closed ring well defined. -/
def edgeCrossesRow (y : ℚ) (e : Point × Point) : Bool :=
  (decide (e.1.2 ≤ y) && decide (y < e.2.2)) ||
    (decide (e.2.2 ≤ y) && decide (y < e.1.2))

/-- The abscissa at which edge `e` crosses the horizontal line at height
`y` (only meaningful when `edgeCrossesRow y e`). -/
def crossingX (y : ℚ) (e : Point × Point) : ℚ :=
  e.1.1 + (y - e.1.2) * (e.2.1 - e.1.1) / (e.2.2 - e.1.2)

/-- General-path containment test of a single point against a single ring:
count the edges whose crossing with the horizontal line through the point
lies strictly to the right of the point; the point is inside iff the count
is odd (even-odd rule, spec 4.4). -/
def crossingCount (p : Point) (es : List (Point × Point)) : ℕ :=
  es.countP (fun e => edgeCrossesRow p.2 e && decide (p.1 < crossingX p.2 e))

/-- Even-odd containment of a point in a ring. -/
def Ring.containsPt (r : Ring) (p : Point) : Bool :=
  crossingCount p r.edges % 2 == 1

/-- Exact polygon containment: inside the exterior ring and outside every
hole ring (spec 4.3 and 4.4). -/
def Polygon.containsPt (poly : Polygon) (p : Point) : Bool :=
  poly.exterior.containsPt p && !(poly.interiors.any (fun h => h.containsPt p))

/-! ## Bounding boxes (the spatial index of the general path) -/

/-- Axis-aligned bounding box. -/
structure BBox where
  xlo : ℚ
  ylo : ℚ
  xhi : ℚ
  yhi : ℚ

/-- Extend a bounding box to cover one more point. -/
def bbStep (b : BBox) (q : Point) : BBox :=
  ⟨min b.xlo q.1, min b.ylo q.2, max b.xhi q.1, max b.yhi q.2⟩

/-- Bounding box of a list of points (the fold ignores an empty list and
starts from the first vertex). -/
def boundsOf (vs : List Point) : BBox :=
  match vs with
  | [] => ⟨0, 0, 0, 0⟩
  | v :: rest => rest.foldl bbStep ⟨v.1, v.2, v.1, v.2⟩

/-- Bounding box of a polygon: over the vertices of all of its rings. -/
def Polygon.bbox (poly : Polygon) : BBox :=
  boundsOf (poly.exterior.vertices ++ (poly.interiors.map Ring.vertices).flatten)

/-- Membership of a point in a bounding box. -/
def BBox.containsPt (b : BBox) (p : Point) : Bool :=
  decide (b.xlo ≤ p.1) && decide (p.1 ≤ b.xhi) &&
    decide (b.ylo ≤ p.2) && decide (p.2 ≤ b.yhi)

/-- Modelled from the spec: the general path ("shapely" backend) first
prunes a region by its bounding box (the spatial index) and then performs
the exact point-in-polygon test (spec 4.4).  The point passed here is
already epsilon-adjusted. -/
def shapelyContains (poly : Polygon) (p : Point) : Bool :=
  poly.bbox.containsPt p && poly.containsPt p

/-! ## Equally spaced axes and the two backends -/

/-- A 1-D equally spaced coordinate axis: start value, grid spacing and
number of points.  Any rational spacing is allowed, covering both
integer-degree and fractional-degree grids. -/
structure Axis where
  start : ℚ
  step : ℚ
  count : ℕ

/-- The i-th coordinate value of an axis. -/
def Axis.val (ax : Axis) (i : ℕ) : ℚ := ax.start + i * ax.step

/-- Modelled from the spec: the general "shapely" backend on a rectilinear
grid: one boolean row per latitude, one entry per longitude, each grid
point epsilon-adjusted and tested with the bounding-box prune plus the
exact even-odd test (spec 4.4). -/
def maskShapelyGrid (poly : Polygon) (lon lat : Axis) : List (List Bool) :=
  (List.range lat.count).map (fun j =>
    (List.range lon.count).map (fun i =>
      shapelyContains poly (adjust (lon.val i, lat.val j))))

/-- The x-coordinates at which the edges of ring `r` cross the horizontal
scan line at height `y`. -/
def rowCrossingXs (y : ℚ) (r : Ring) : List ℚ :=
  (r.edges.filter (edgeCrossesRow y)).map (crossingX y)

/-- Scan-line fill of one cell: a cell whose (adjusted) centre abscissa is
`px` is inside iff an odd number of the row's crossings lie strictly to its
right. -/
def scanlineCell (xs : List ℚ) (px : ℚ) : Bool :=
  xs.countP (fun x => decide (px < x)) % 2 == 1

/-- One scan line of the fast path: for the (already adjusted) row height
`y`, compute the crossing abscissas of every ring once and fill the cells
of the row. -/
def rasterizeRow (poly : Polygon) (y : ℚ) (lon : Axis) : List Bool :=
  (List.range lon.count).map (fun i =>
    let px := lon.val i - EPSILON
    scanlineCell (rowCrossingXs y poly.exterior) px &&
      !(poly.interiors.any (fun h => scanlineCell (rowCrossingXs y h) px)))

/-- Modelled from the spec: the fast "rasterize" backend for equally spaced
rectilinear grids: a scan-line fill per latitude row, with the same
epsilon adjustment and edge rule as the general path (spec 4.3). -/
def maskRasterize (poly : Polygon) (lon lat : Axis) : List (List Bool) :=
  (List.range lat.count).map (fun j => rasterizeRow poly (lat.val j - EPSILON) lon)

end Regionmask

namespace Regionmask

/-! ## Equivalence of the scan-line fill with the pointwise even-odd test -/

theorem scanlineCell_eq_crossing (y px : ℚ) (r : Ring) :
    scanlineCell (rowCrossingXs y r) px = (crossingCount (px, y) r.edges % 2 == 1) := by
  unfold scanlineCell rowCrossingXs crossingCount
  rw [List.countP_map, List.countP_filter]
  have hp : (fun a => ((fun x => decide (px < x)) ∘ crossingX y) a && edgeCrossesRow y a)
      = (fun e => edgeCrossesRow (px, y).2 e && decide ((px, y).1 < crossingX (px, y).2 e)) := by
    funext e
    exact Bool.and_comm _ _
  rw [hp]

theorem ring_scanline_eq_containsPt (poly : Polygon) (x y : ℚ) :
    (scanlineCell (rowCrossingXs y poly.exterior) x &&
      !(poly.interiors.any (fun h => scanlineCell (rowCrossingXs y h) x))) =
      poly.containsPt (x, y) := by
  unfold Polygon.containsPt Ring.containsPt
  rw [scanlineCell_eq_crossing]
  have hp : (fun h => scanlineCell (rowCrossingXs y h) x)
      = (fun h : Ring => crossingCount (x, y) h.edges % 2 == 1) := by
    funext h
    exact scanlineCell_eq_crossing y x h
  rw [hp]

/-! ## Parity: a closed ring crosses any horizontal line an even number of times -/

theorem countP_neq_chain (a b : Bool) (l : List Bool) :
    ((a :: l).zip (l ++ [b])).countP (fun q => q.1 != q.2) % 2 =
      (if a == b then 0 else 1) := by
  induction l generalizing a with
  | nil => cases a <;> cases b <;> decide
  | cons c l ih =>
    have hz : ((a :: c :: l).zip (c :: l ++ [b])) = (a, c) :: ((c :: l).zip (l ++ [b])) := by
      simp [List.zip_cons_cons]
    rw [hz, List.countP_cons, Nat.add_mod, ih c]
    cases a <;> cases b <;> cases c <;> simp

theorem edgeCrossesRow_eq_bne (y : ℚ) (e : Point × Point) :
    edgeCrossesRow y e = (decide (e.1.2 ≤ y) != decide (e.2.2 ≤ y)) := by
  unfold edgeCrossesRow
  by_cases h1 : e.1.2 ≤ y <;> by_cases h2 : e.2.2 ≤ y
  · simp [h1, h2, not_lt.mpr h1, not_lt.mpr h2]
  · simp [h1, h2, not_le.mp h2, not_lt.mpr h1]
  · simp [h1, h2, not_le.mp h1, not_lt.mpr h2]
  · simp [h1, h2, not_le.mp h1, not_le.mp h2]

theorem crossings_even (y : ℚ) (r : Ring) :
    (r.edges.countP (edgeCrossesRow y)) % 2 = 0 := by
  have hcr : (r.edges.countP (edgeCrossesRow y))
      = (r.edges.countP (fun e => decide (e.1.2 ≤ y) != decide (e.2.2 ≤ y))) := by
    have hp : (edgeCrossesRow y) = (fun e : Point × Point =>
        decide (e.1.2 ≤ y) != decide (e.2.2 ≤ y)) := by
      funext e
      exact edgeCrossesRow_eq_bne y e
    rw [hp]
  rw [hcr]
  unfold Ring.edges
  have hmap : r.vertices.zip (r.vertices.rotate 1)
      = r.vertices.zip (r.vertices.rotate 1) := rfl
  -- transport the count through the lat-coordinate projection
  have key : (r.vertices.zip (r.vertices.rotate 1)).countP
        (fun e => decide (e.1.2 ≤ y) != decide (e.2.2 ≤ y))
      = ((r.vertices.map (fun v => decide (v.2 ≤ y))).zip
          ((r.vertices.map (fun v => decide (v.2 ≤ y))).rotate 1)).countP
        (fun q => q.1 != q.2) := by
    rw [← List.map_rotate, List.zip_map, List.countP_map]
    rfl
  rw [key]
  cases hv : r.vertices.map (fun v => decide (v.2 ≤ y)) with
  | nil => simp
  | cons pb rest =>
    have hrot : (pb :: rest).rotate 1 = rest ++ [pb] := by
      simp [List.rotate_cons_succ]
    rw [hrot, countP_neq_chain pb pb rest]
    simp

end Regionmask

namespace Regionmask

/-! ## Crossing abscissas stay within the edge x-extent -/

theorem crossingX_bounds (y : ℚ) (e : Point × Point) (h : edgeCrossesRow y e = true) :
    min e.1.1 e.2.1 ≤ crossingX y e ∧ crossingX y e ≤ max e.1.1 e.2.1 := by
  unfold edgeCrossesRow at h
  unfold crossingX
  have ht : 0 ≤ (y - e.1.2) / (e.2.2 - e.1.2) ∧ (y - e.1.2) / (e.2.2 - e.1.2) ≤ 1 := by
    simp only [Bool.or_eq_true, Bool.and_eq_true, decide_eq_true_eq] at h
    rcases h with ⟨h1, h2⟩ | ⟨h1, h2⟩
    · have hd : 0 < e.2.2 - e.1.2 := by linarith
      constructor
      · apply div_nonneg <;> linarith
      · rw [div_le_one hd]
        linarith
    · have hflip : (y - e.1.2) / (e.2.2 - e.1.2) = (e.1.2 - y) / (e.1.2 - e.2.2) := by
        rw [← neg_div_neg_eq]
        ring_nf
      have hd : 0 < e.1.2 - e.2.2 := by linarith
      rw [hflip]
      constructor
      · apply div_nonneg <;> linarith
      · rw [div_le_one hd]
        linarith
  have hrw : e.1.1 + (y - e.1.2) * (e.2.1 - e.1.1) / (e.2.2 - e.1.2)
      = e.1.1 + ((y - e.1.2) / (e.2.2 - e.1.2)) * (e.2.1 - e.1.1) := by
    ring
  rw [hrw]
  obtain ⟨ht0, ht1⟩ := ht
  set t := (y - e.1.2) / (e.2.2 - e.1.2) with hdef
  constructor
  · rcases le_total e.1.1 e.2.1 with hx | hx
    · have h1 : 0 ≤ t * (e.2.1 - e.1.1) := mul_nonneg ht0 (by linarith)
      have h2 := min_le_left e.1.1 e.2.1
      linarith
    · have h1 : e.2.1 - e.1.1 ≤ t * (e.2.1 - e.1.1) := by nlinarith
      have h2 := min_le_right e.1.1 e.2.1
      linarith
  · rcases le_total e.1.1 e.2.1 with hx | hx
    · have h1 : t * (e.2.1 - e.1.1) ≤ e.2.1 - e.1.1 := by nlinarith
      have h2 := le_max_right e.1.1 e.2.1
      linarith
    · have h1 : t * (e.2.1 - e.1.1) ≤ 0 := mul_nonpos_of_nonneg_of_nonpos ht0 (by linarith)
      have h2 := le_max_left e.1.1 e.2.1
      linarith


/-! ## The bounding box bounds every vertex -/

theorem bbfold_shrinks (l : List Point) (init : BBox) :
    (l.foldl bbStep init).xlo ≤ init.xlo ∧ (l.foldl bbStep init).ylo ≤ init.ylo ∧
      init.xhi ≤ (l.foldl bbStep init).xhi ∧ init.yhi ≤ (l.foldl bbStep init).yhi := by
  induction l generalizing init with
  | nil => simp
  | cons q l ih =>
    rw [List.foldl_cons]
    obtain ⟨h1, h2, h3, h4⟩ := ih (bbStep init q)
    unfold bbStep at h1 h2 h3 h4
    refine ⟨le_trans h1 ?_, le_trans h2 ?_, le_trans ?_ h3, le_trans ?_ h4⟩ <;> simp

theorem bbfold_covers (l : List Point) (init : BBox) (q : Point) (hq : q ∈ l) :
    (l.foldl bbStep init).xlo ≤ q.1 ∧ q.1 ≤ (l.foldl bbStep init).xhi ∧
      (l.foldl bbStep init).ylo ≤ q.2 ∧ q.2 ≤ (l.foldl bbStep init).yhi := by
  induction l generalizing init with
  | nil => cases hq
  | cons v l ih =>
    rw [List.foldl_cons]
    rcases List.mem_cons.mp hq with hq | hq
    · subst hq
      obtain ⟨h1, h2, h3, h4⟩ := bbfold_shrinks l (bbStep init q)
      unfold bbStep at h1 h2 h3 h4
      refine ⟨le_trans h1 ?_, le_trans ?_ h3, le_trans h2 ?_, le_trans ?_ h4⟩ <;> simp
    · exact ih (bbStep init v) hq

theorem boundsOf_covers (vs : List Point) (q : Point) (hq : q ∈ vs) :
    (boundsOf vs).xlo ≤ q.1 ∧ q.1 ≤ (boundsOf vs).xhi ∧
      (boundsOf vs).ylo ≤ q.2 ∧ q.2 ≤ (boundsOf vs).yhi := by
  match vs, hq with
  | v :: rest, hq =>
    unfold boundsOf
    rcases List.mem_cons.mp hq with h | h
    · subst h
      obtain ⟨h1, h2, h3, h4⟩ := bbfold_shrinks rest ⟨q.1, q.2, q.1, q.2⟩
      exact ⟨h1, h3, h2, h4⟩
    · exact bbfold_covers rest _ q h

/-! ## Exact containment implies bounding-box containment -/

theorem ring_containsPt_in_box (r : Ring) (p : Point) (b : BBox)
    (hb : ∀ v ∈ r.vertices, b.xlo ≤ v.1 ∧ v.1 ≤ b.xhi ∧ b.ylo ≤ v.2 ∧ v.2 ≤ b.yhi)
    (h : r.containsPt p = true) : b.containsPt p = true := by
  unfold Ring.containsPt at h
  have hodd : crossingCount p r.edges % 2 = 1 := by
    simpa using h
  have hpos : 0 < crossingCount p r.edges := by
    rcases Nat.eq_zero_or_pos (crossingCount p r.edges) with h0 | h0
    · rw [h0] at hodd
      cases hodd
    · exact h0
  unfold crossingCount at hpos
  rw [List.countP_pos_iff] at hpos
  obtain ⟨e, hmem, hcross⟩ := hpos
  rw [Bool.and_eq_true, decide_eq_true_eq] at hcross
  obtain ⟨hcr, hlt⟩ := hcross
  -- the two endpoints of e are vertices of the ring
  have hv : e.1 ∈ r.vertices ∧ e.2 ∈ r.vertices := by
    unfold Ring.edges at hmem
    have := List.of_mem_zip (a := e.1) (b := e.2) (by simpa using hmem)
    exact ⟨this.1, List.mem_rotate.mp this.2⟩
  have hb1 := hb e.1 hv.1
  have hb2 := hb e.2 hv.2
  -- latitude of p lies within the y-extent of the crossing edge
  have hy : b.ylo ≤ p.2 ∧ p.2 ≤ b.yhi := by
    unfold edgeCrossesRow at hcr
    simp only [Bool.or_eq_true, Bool.and_eq_true, decide_eq_true_eq] at hcr
    rcases hcr with ⟨h1, h2⟩ | ⟨h1, h2⟩
    · exact ⟨le_trans hb1.2.2.1 h1, le_trans (le_of_lt h2) hb2.2.2.2⟩
    · exact ⟨le_trans hb2.2.2.1 h1, le_trans (le_of_lt h2) hb1.2.2.2⟩
  -- p.1 is strictly left of a crossing, which is at most xhi
  have hxhi : p.1 ≤ b.xhi := by
    have hcb := (crossingX_bounds p.2 e hcr).2
    have : max e.1.1 e.2.1 ≤ b.xhi := max_le hb1.2.1 hb2.2.1
    linarith
  -- if p.1 were strictly left of xlo, every row crossing would count, and
  -- a closed ring crosses the row an even number of times
  have hxlo : b.xlo ≤ p.1 := by
    by_contra hlo
    push_neg at hlo
    have hall : ∀ f ∈ r.edges,
        (edgeCrossesRow p.2 f && decide (p.1 < crossingX p.2 f)) = edgeCrossesRow p.2 f := by
      intro f hfmem
      cases hf : edgeCrossesRow p.2 f with
      | false => simp
      | true =>
        have hcb := (crossingX_bounds p.2 f hf).1
        have hvf : f.1 ∈ r.vertices ∧ f.2 ∈ r.vertices := by
          unfold Ring.edges at hfmem
          have := List.of_mem_zip (a := f.1) (b := f.2) (by simpa using hfmem)
          exact ⟨this.1, List.mem_rotate.mp this.2⟩
        have hlo1 := (hb f.1 hvf.1).1
        have hlo2 := (hb f.2 hvf.2).1
        have hm : b.xlo ≤ min f.1.1 f.2.1 := le_min hlo1 hlo2
        have hplt : p.1 < crossingX p.2 f := by linarith
        simp [hplt]
    have heq : crossingCount p r.edges = r.edges.countP (edgeCrossesRow p.2) := by
      unfold crossingCount
      exact List.countP_congr (fun f hf => by rw [hall f hf])
    rw [heq, crossings_even p.2 r] at hodd
    cases hodd
  unfold BBox.containsPt
  simp [hxlo, hxhi, hy.1, hy.2]

theorem polygon_containsPt_in_bbox (poly : Polygon) (p : Point)
    (h : poly.containsPt p = true) : poly.bbox.containsPt p = true := by
  unfold Polygon.containsPt at h
  rw [Bool.and_eq_true] at h
  apply ring_containsPt_in_box poly.exterior p poly.bbox _ h.1
  intro v hv
  apply boundsOf_covers
  exact List.mem_append_left _ hv

/-! ## The two backends agree on every equally spaced grid -/

theorem rasterize_cell_eq_shapely (poly : Polygon) (x y : ℚ) :
    (scanlineCell (rowCrossingXs (y - EPSILON) poly.exterior) (x - EPSILON) &&
      !(poly.interiors.any (fun h => scanlineCell (rowCrossingXs (y - EPSILON) h) (x - EPSILON)))) =
      shapelyContains poly (adjust (x, y)) := by
  rw [ring_scanline_eq_containsPt]
  unfold shapelyContains adjust
  cases hc : poly.containsPt (x - EPSILON, y - EPSILON) with
  | false => simp [hc]
  | true =>
    have := polygon_containsPt_in_bbox poly (x - EPSILON, y - EPSILON) hc
    simp [hc, this]


/-- C1: for every region outline and every pair of equally spaced lon/lat
axes (any rational start and spacing, hence integer-degree or
fractional-degree), the fast scan-line "rasterize" backend and the general
bounding-box-pruned point-in-polygon "shapely" backend produce identical
boolean membership layers. -/
theorem C1_backend_equivalence (poly : Polygon) (lon lat : Axis) :
    maskRasterize poly lon lat = maskShapelyGrid poly lon lat := by
  simp only [maskRasterize, maskShapelyGrid, rasterizeRow]
  apply List.map_congr_left
  intro j _
  apply List.map_congr_left
  intro i _
  exact rasterize_cell_eq_shapely poly (lon.val i) (lat.val j)

end Regionmask

namespace Regionmask

/-! ## Axis-aligned rectangles -/

/-- An axis-aligned rectangular ring with the given corner coordinates. -/
def rectRing (x0 y0 x1 y1 : ℚ) : Ring :=
  ⟨[(x0, y0), (x1, y0), (x1, y1), (x0, y1)]⟩

/-- An axis-aligned rectangular region without holes. -/
def rectPoly (x0 y0 x1 y1 : ℚ) : Polygon := ⟨rectRing x0 y0 x1 y1, []⟩

theorem rectRing_edges (x0 y0 x1 y1 : ℚ) :
    (rectRing x0 y0 x1 y1).edges =
      [((x0, y0), (x1, y0)), ((x1, y0), (x1, y1)),
        ((x1, y1), (x0, y1)), ((x0, y1), (x0, y0))] := rfl

/-- Containment in a rectangle evaluates to the half-open box
`[x0, x1) x [y0, y1)` (for the raw, already adjusted test coordinates). -/
theorem rectRing_containsPt (x0 y0 x1 y1 px py : ℚ) (hx : x0 < x1) (hy : y0 < y1) :
    (rectRing x0 y0 x1 y1).containsPt (px, py)
      = (decide (x0 ≤ px) && decide (px < x1) && decide (y0 ≤ py) && decide (py < y1)) := by
  unfold Ring.containsPt crossingCount
  rw [rectRing_edges]
  simp only [List.countP_cons, List.countP_nil, edgeCrossesRow, crossingX]
  have e2x : x1 + (py - y0) * (x1 - x1) / (y1 - y0) = x1 := by
    ring_nf
  have e4x : x0 + (py - y1) * (x0 - x0) / (y0 - y1) = x0 := by
    ring_nf
  simp only [e2x, e4x]
  by_cases hpy0 : y0 ≤ py <;> by_cases hpy1 : py < y1
  · have h1 : ¬ py < y0 := not_lt.mpr hpy0
    have h2 : ¬ y1 ≤ py := not_le.mpr hpy1
    by_cases hpx0 : x0 ≤ px
    · have h3 : ¬ px < x0 := not_lt.mpr hpx0
      by_cases hpx1 : px < x1 <;>
        simp [hpy0, hpy1, hpx0, h1, h2, h3, hpx1]
    · have h3 : px < x0 := not_le.mp hpx0
      have h4 : px < x1 := lt_trans h3 hx
      simp [hpy0, hpy1, hpx0, h1, h2, h3, h4]
  · have h1 : ¬ py < y0 := not_lt.mpr hpy0
    have h2 : y1 ≤ py := not_lt.mp hpy1
    simp [hpy0, hpy1, h1, h2, not_lt.mpr (le_trans (le_of_lt hy) h2)]
  · have h1 : py < y0 := not_le.mp hpy0
    have h2 : ¬ y1 ≤ py := not_le.mpr (lt_trans h1 hy)
    simp [hpy0, hpy1, h1, h2]
  · have h1 : py < y0 := not_le.mp hpy0
    have h2 : y1 ≤ py := not_lt.mp hpy1
    exact absurd (lt_trans h1 hy) (not_lt.mpr h2)

end Regionmask

namespace Regionmask

theorem eps_pos : 0 < EPSILON := by norm_num [EPSILON]

theorem eps_le_one : EPSILON ≤ 1 := by norm_num [EPSILON]

/-- For integers, being at least epsilon below `n` is the same as being
strictly below `n`. -/
theorem int_le_sub_eps (m n : ℤ) : ((m:ℚ) ≤ (n:ℚ) - EPSILON) ↔ m < n := by
  constructor
  · intro h
    by_contra hc
    push_neg at hc
    have hq : (n:ℚ) ≤ (m:ℚ) := by exact_mod_cast hc
    have := eps_pos
    linarith
  · intro h
    have hq : (m:ℚ) + 1 ≤ (n:ℚ) := by exact_mod_cast Int.add_one_le_iff.mpr h
    have := eps_le_one
    linarith

/-- For integers, `n - eps` is strictly below `m` iff `n ≤ m`. -/
theorem int_sub_eps_lt (n m : ℤ) : ((n:ℚ) - EPSILON < (m:ℚ)) ↔ n ≤ m := by
  constructor
  · intro h
    by_contra hc
    push_neg at hc
    have hq : (m:ℚ) + 1 ≤ (n:ℚ) := by exact_mod_cast Int.add_one_le_iff.mpr hc
    have := eps_le_one
    linarith
  · intro h
    have hq : (n:ℚ) ≤ (m:ℚ) := by exact_mod_cast h
    have := eps_pos
    linarith

/-- C2 (amended): a rectangular region with vertices on exact integer grid
lines claims exactly the half-open block of integer grid points that is
EXCLUSIVE on the minimum-coordinate side and INCLUSIVE on the
maximum-coordinate side: the point is assigned iff x0 < x ≤ x1 and
y0 < y ≤ y1 (the boundary point belongs to the region lying below/left of
it), with no missing or duplicated border row or column. -/
theorem C2_half_open_block (x0 y0 x1 y1 x y : ℤ) (hx : x0 < x1) (hy : y0 < y1) :
    (rectPoly ((x0:ℚ)) ((y0:ℚ)) ((x1:ℚ)) ((y1:ℚ))).containsPt (adjust (((x:ℚ)), ((y:ℚ))))
      = (decide (x0 < x) && decide (x ≤ x1) && decide (y0 < y) && decide (y ≤ y1)) := by
  unfold Polygon.containsPt rectPoly adjust
  simp only [List.any_nil, Bool.not_false, Bool.and_true]
  have hxq : (x0:ℚ) < (x1:ℚ) := by exact_mod_cast hx
  have hyq : (y0:ℚ) < (y1:ℚ) := by exact_mod_cast hy
  rw [rectRing_containsPt _ _ _ _ _ _ hxq hyq]
  rw [decide_eq_decide.mpr (int_le_sub_eps x0 x), decide_eq_decide.mpr (int_sub_eps_lt x x1),
    decide_eq_decide.mpr (int_le_sub_eps y0 y), decide_eq_decide.mpr (int_sub_eps_lt y y1)]

/-- C2 witness: the amended claim applied to the rectangle
(0,0)-(2,2) and the grid point (2, 1) on its maximum-x boundary. -/
theorem C2_half_open_block_witness :
    (0:ℤ) < 2 ∧
      (rectPoly (((0:ℤ):ℚ)) (((0:ℤ):ℚ)) (((2:ℤ):ℚ)) (((2:ℤ):ℚ))).containsPt
          (adjust ((((2:ℤ):ℚ)), (((1:ℤ):ℚ))))
        = (decide ((0:ℤ) < 2) && decide ((2:ℤ) ≤ 2) && decide ((0:ℤ) < 1) && decide ((1:ℤ) ≤ 2)) :=
  ⟨by decide, C2_half_open_block 0 0 2 2 2 1 (by decide) (by decide)⟩

/-- C2 counterexample: the claim as stated (inclusive on the
minimum-coordinate side, exclusive on the maximum-coordinate side) is
false: the grid point (0, 1) on the minimum-x boundary of the rectangle
(0,0)-(2,2) is NOT assigned, while the point (2, 1) on the maximum-x
boundary IS assigned. -/
theorem C2_counterexample :
    (rectPoly 0 0 2 2).containsPt (adjust (0, 1)) = false ∧
      (rectPoly 0 0 2 2).containsPt (adjust (2, 1)) = true := by
  unfold Polygon.containsPt rectPoly adjust
  simp only [List.any_nil, Bool.not_false, Bool.and_true]
  rw [rectRing_containsPt _ _ _ _ _ _ (by norm_num) (by norm_num),
    rectRing_containsPt _ _ _ _ _ _ (by norm_num) (by norm_num)]
  norm_num [EPSILON]

end Regionmask

namespace Regionmask

/-! ## Longitude wraparound: seam and pole special-casing (spec 4.1) -/

/-- A point-level containment helper: exact containment implies the
bounding-box prune keeps the region, so the general path agrees with the
exact test. -/
theorem shapelyContains_of_containsPt (poly : Polygon) (q : Point)
    (hc : poly.containsPt q = true) : shapelyContains poly q = true := by
  unfold shapelyContains
  rw [polygon_containsPt_in_bbox poly q hc, hc]
  rfl

theorem rectPoly_containsPt (x0 y0 x1 y1 px py : ℚ) (hx : x0 < x1) (hy : y0 < y1) :
    (rectPoly x0 y0 x1 y1).containsPt (px, py)
      = (decide (x0 ≤ px) && decide (px < x1) && decide (y0 ≤ py) && decide (py < y1)) := by
  unfold Polygon.containsPt rectPoly
  simp only [List.any_nil, Bool.not_false, Bool.and_true]
  exact rectRing_containsPt x0 y0 x1 y1 px py hx hy

/-- Modelled from the spec: a query point needing special treatment: its
longitude is exactly on the wrap seam of the grid domain (`seam` is -180
for a [-180, 180) domain, 0 for a [0, 360) domain) or its latitude is
exactly at the south pole (spec 4.1; method notebook section "Points at
-180°E (0°E) and -90°N"). -/
def isEdgePoint (seam : ℚ) (p : Point) : Bool :=
  decide (p.1 = seam) || decide (p.2 = -90)

/-- Modelled from the spec: the remapped test position of an edge point: a
seam longitude is mapped to the opposite bound (seam + 360) and then gets
the standard offset; a south-pole latitude is moved to -90 + 10^-10
(method notebook: "Points at -180°E (0°E) are mapped to 180°E (360°E).
Points at -90°N are slightly shifted northwards (by 1 * 10 ** -10)"). -/
def edgeAdjust (seam : ℚ) (p : Point) : Point :=
  ((if p.1 = seam then p.1 + 360 else p.1) - EPSILON,
    if p.2 = -90 then -90 + POLE_NUDGE else p.2 - EPSILON)

/-- Modelled from the spec: per-region membership with longitude
wraparound enabled: the point is offset and tested; an edge point that
would otherwise be unassigned is additionally tested at its remapped
position (method notebook: "Then it is tested if the shifted points
belong to any region"). -/
def maskPointWrap (seam : ℚ) (poly : Polygon) (p : Point) : Bool :=
  shapelyContains poly (adjust p) ||
    (isEdgePoint seam p && shapelyContains poly (edgeAdjust seam p))

/-- Modelled from the spec: with wrap_lon explicitly disabled no seam or
pole special-casing occurs (method notebook note: "this applies only if
wrap_lon is not set to False"). -/
def maskPointNoWrap (poly : Polygon) (p : Point) : Bool :=
  shapelyContains poly (adjust p)

/-- The global region used by the method notebook: a polygon spanning the
whole globe. -/
def globalPoly : Polygon := rectPoly (-180) (-90) 180 90

theorem pole_nudge_pos : 0 < POLE_NUDGE := by norm_num [POLE_NUDGE]

theorem pole_nudge_small : POLE_NUDGE < 1 := by norm_num [POLE_NUDGE]

/-- C3 (amended, part 1): with wraparound enabled, the globe-spanning
region claims every grid point: points with longitude exactly at the seam
(-180°) are remapped to the opposite bound (+360) and points with
latitude exactly at the south pole are nudged to -90 + 10^-10; all other
grid points (at least the 10^-9 offset away from the seam/south pole)
are claimed directly.  With wraparound disabled the guarantee is removed:
the corner point (-180°, -90°) falls outside the region. -/
theorem C3_seam_pole_coverage (x y : ℚ)
    (hx : x = -180 ∨ -180 + EPSILON ≤ x) (hxhi : x ≤ 180)
    (hy : y = -90 ∨ -90 + EPSILON ≤ y) (hyhi : y ≤ 90) :
    maskPointWrap (-180) globalPoly (x, y) = true ∧
      maskPointNoWrap globalPoly ((-180 : ℚ), (-90 : ℚ)) = false := by
  have heps := eps_pos
  have hepsle := eps_le_one
  have hnp := pole_nudge_pos
  have hnps := pole_nudge_small
  constructor
  · unfold maskPointWrap
    rcases hx with hxs | hxin
    · -- seam longitude: the remapped test point is claimed
      have hedge : isEdgePoint (-180) (x, y) = true := by
        unfold isEdgePoint
        simp [hxs]
      have hcont : globalPoly.containsPt (edgeAdjust (-180) (x, y)) = true := by
        unfold edgeAdjust globalPoly
        simp only [hxs, if_pos rfl]
        by_cases hys : y = -90
        · rw [if_pos hys]
          rw [rectPoly_containsPt _ _ _ _ _ _ (by norm_num) (by norm_num)]
          simp only [Bool.and_eq_true, decide_eq_true_eq]
          norm_num [EPSILON, POLE_NUDGE]
        · rw [if_neg hys]
          rcases hy with hy | hy
          · exact absurd hy hys
          · rw [rectPoly_containsPt _ _ _ _ _ _ (by norm_num) (by norm_num)]
            simp only [Bool.and_eq_true, decide_eq_true_eq]
            refine ⟨⟨⟨by norm_num [EPSILON], by norm_num [EPSILON]⟩, by linarith⟩, by linarith⟩
      rw [hedge, shapelyContains_of_containsPt _ _ hcont]
      simp
    · by_cases hys : y = -90
      · -- south pole on a non-seam longitude
        have hedge : isEdgePoint (-180) (x, y) = true := by
          unfold isEdgePoint
          simp [hys]
        have hxne : x ≠ -180 := by
          intro hc
          rw [hc] at hxin
          linarith
        have hcont : globalPoly.containsPt (edgeAdjust (-180) (x, y)) = true := by
          unfold edgeAdjust globalPoly
          rw [if_neg hxne, if_pos hys]
          rw [rectPoly_containsPt _ _ _ _ _ _ (by norm_num) (by norm_num)]
          simp only [Bool.and_eq_true, decide_eq_true_eq]
          refine ⟨⟨⟨by linarith, by linarith⟩, by norm_num [POLE_NUDGE]⟩, by norm_num [POLE_NUDGE]⟩
        rw [hedge, shapelyContains_of_containsPt _ _ hcont]
        simp
      · -- interior point: the plain offset test claims it
        have hyin : -90 + EPSILON ≤ y := by
          rcases hy with hy | hy
          · exact absurd hy hys
          · exact hy
        have hcont : globalPoly.containsPt (adjust (x, y)) = true := by
          unfold adjust globalPoly
          rw [rectPoly_containsPt _ _ _ _ _ _ (by norm_num) (by norm_num)]
          simp only [Bool.and_eq_true, decide_eq_true_eq]
          refine ⟨⟨⟨by linarith, by linarith⟩, by linarith⟩, by linarith⟩
        rw [shapelyContains_of_containsPt _ _ hcont]
        simp
  · unfold maskPointNoWrap shapelyContains adjust globalPoly
    have hcont : (rectPoly (-180 : ℚ) (-90) 180 90).containsPt (-180 - EPSILON, -90 - EPSILON) = false := by
      rw [rectPoly_containsPt _ _ _ _ _ _ (by norm_num) (by norm_num)]
      have hne : ¬ ((-180 : ℚ) ≤ -180 - EPSILON) := by norm_num [EPSILON]
      simp [hne]
    rw [hcont]
    simp

end Regionmask

namespace Regionmask

/-- C3 witness: the coverage theorem applied at the seam/south-pole corner
point (-180°, -90°). -/
theorem C3_seam_pole_coverage_witness :
    ((-180 : ℚ) = -180 ∨ -180 + EPSILON ≤ (-180 : ℚ)) ∧ ((-180 : ℚ) ≤ 180) ∧
      ((-90 : ℚ) = -90 ∨ -90 + EPSILON ≤ (-90 : ℚ)) ∧ ((-90 : ℚ) ≤ 90) ∧
      (maskPointWrap (-180) globalPoly ((-180 : ℚ), (-90 : ℚ)) = true ∧
        maskPointNoWrap globalPoly ((-180 : ℚ), (-90 : ℚ)) = false) :=
  ⟨Or.inl rfl, by norm_num, Or.inl rfl, by norm_num,
    C3_seam_pole_coverage (-180) (-90) (Or.inl rfl) (by norm_num) (Or.inl rfl) (by norm_num)⟩

/-- C3 counterexample: the claim as stated is false: a query point with
latitude exactly at the south pole is nudged by 10^-10, NOT by the same
epsilon (10^-9) as the edge offset: at the concrete point (5°, -90°) the
remapped latitude is -90 + 1/10^10, which differs from -90 + 1/10^9. -/
theorem C3_counterexample :
    (edgeAdjust (-180) ((5 : ℚ), (-90 : ℚ))).2 = -90 + 1 / 10 ^ 10 ∧
      (edgeAdjust (-180) ((5 : ℚ), (-90 : ℚ))).2 ≠ -90 + 1 / 10 ^ 9 := by
  unfold edgeAdjust POLE_NUDGE
  norm_num

end Regionmask

namespace Regionmask

/-! ## The Grid Splitter (spec 4.2) -/

/-- Consecutive differences of a 1-D coordinate axis. -/
def diffsOf {α : Type} [LinearOrderedRing α] (xs : List α) : List α :=
  (xs.zip xs.tail).map (fun q => q.2 - q.1)

/-- Modelled from the spec: is the axis strictly increasing with one
constant positive spacing (spec 4.2: "a single strictly increasing,
equally-spaced sequence")? -/
def equallySpacedIncr {α : Type} [LinearOrderedRing α] (xs : List α) : Bool :=
  match diffsOf xs with
  | [] => true
  | d :: ds => decide (0 < d) && ds.all (fun e => decide (e = d))

/-- The indices at which the axis decreases instead of increases (spec
4.2: the candidate "split points"). -/
def descentIndices {α : Type} [LinearOrderedRing α] (xs : List α) : List ℕ :=
  (List.range (xs.length - 1)).filter
    (fun i => decide (xs.getD (i + 1) 0 < xs.getD i 0))

/-- Modelled from the spec: the Grid Splitter (spec 4.2): if the axis has
exactly one descent and rotating the two runs at that descent yields a
strictly increasing equally spaced sequence, return the split position;
otherwise report failure (the caller falls back to the general path). -/
def findSplitPoint {α : Type} [LinearOrderedRing α] (xs : List α) : Option ℕ :=
  match descentIndices xs with
  | [i] =>
      if equallySpacedIncr (xs.drop (i + 1) ++ xs.take (i + 1)) then some (i + 1)
      else none
  | _ => none

/-- A positive constant spacing forces strict increase. -/
theorem chain_of_diffs {α : Type} [LinearOrderedRing α] (d : α) (hd : 0 < d) :
    ∀ xs : List α, (diffsOf xs).all (fun e => decide (e = d)) = true →
      List.Chain' (· < ·) xs := by
  intro xs
  induction xs with
  | nil => intro _; exact List.chain'_nil
  | cons x0 rest ih =>
    cases rest with
    | nil => intro _; simp
    | cons x1 rest2 =>
      intro hall
      have hd0 : x1 - x0 = d ∧ (diffsOf (x1 :: rest2)).all (fun e => decide (e = d)) = true := by
        unfold diffsOf at hall ⊢
        simp only [List.tail_cons, List.zip_cons_cons, List.map_cons, List.all_cons,
          Bool.and_eq_true, decide_eq_true_eq] at hall ⊢
        exact ⟨hall.1, hall.2⟩
      refine List.chain'_cons.mpr ⟨?_, ih hd0.2⟩
      exact sub_pos.mp (by rw [hd0.1]; exact hd)

/-- Soundness of the equal-spacing check: a passing axis is strictly
increasing. -/
theorem equallySpacedIncr_sound {α : Type} [LinearOrderedRing α] (xs : List α)
    (h : equallySpacedIncr xs = true) : List.Chain' (· < ·) xs := by
  unfold equallySpacedIncr at h
  cases hd : diffsOf xs with
  | nil =>
    cases xs with
    | nil => exact List.chain'_nil
    | cons x rest =>
      cases rest with
      | nil => simp
      | cons y rest2 =>
        unfold diffsOf at hd
        simp at hd
  | cons d ds =>
    rw [hd] at h
    simp only [Bool.and_eq_true, decide_eq_true_eq] at h
    apply chain_of_diffs d h.1 xs
    rw [hd]
    simp only [List.all_cons, Bool.and_eq_true, decide_eq_true_eq]
    exact ⟨trivial, h.2⟩

end Regionmask

namespace Regionmask

/-- C4: whenever the Grid Splitter returns a split position p for a
non-monotonic axis, the rotation it prescribes (drop p then append the
first p entries) is a strictly increasing, equally spaced axis, and
rotating the result back (as done to the output mask) restores exactly
the caller's original coordinate order; whenever no unique valid split
exists the splitter reports failure (returns none) so the caller falls
back to the general path - it never returns a permutation that fails to
restore monotonic spacing. -/
theorem C4_split_sound {α : Type} [LinearOrderedRing α] (xs : List α) (p : ℕ)
    (h : findSplitPoint xs = some p) :
    equallySpacedIncr (xs.drop p ++ xs.take p) = true ∧
      List.Chain' (· < ·) (xs.drop p ++ xs.take p) ∧
      ((xs.drop p ++ xs.take p).drop (xs.length - p) ++
        (xs.drop p ++ xs.take p).take (xs.length - p)) = xs := by
  unfold findSplitPoint at h
  cases hd : descentIndices xs with
  | nil =>
    rw [hd] at h
    exact absurd h (by simp)
  | cons i rest =>
    cases rest with
    | cons j rest2 =>
      rw [hd] at h
      exact absurd h (by simp)
    | nil =>
      rw [hd] at h
      replace h : (if equallySpacedIncr (xs.drop (i + 1) ++ xs.take (i + 1)) = true
          then some (i + 1) else none) = some p := h
      by_cases hc : equallySpacedIncr (xs.drop (i + 1) ++ xs.take (i + 1)) = true
      · rw [if_pos hc] at h
        have hp : p = i + 1 := by
          cases h
          rfl
        subst hp
        refine ⟨hc, equallySpacedIncr_sound _ hc, ?_⟩
        -- the split position is within the axis
        have hmem : i ∈ descentIndices xs := by
          rw [hd]
          exact List.mem_singleton.mpr rfl
        have hlt : i < xs.length - 1 := by
          unfold descentIndices at hmem
          have := List.mem_filter.mp hmem
          exact List.mem_range.mp this.1
        have hle : i + 1 ≤ xs.length := by omega
        have hlen : (xs.drop (i + 1)).length = xs.length - (i + 1) := List.length_drop _ _
        rw [← hlen, List.drop_left, List.take_left, List.take_append_drop]
      · rw [if_neg hc] at h
        cases h

/-- C4 witness: the changelog example [3, 4, 5, 1, 2]: the splitter finds
the split position 3, the prescribed rotation is the strictly increasing
equally spaced [1, 2, 3, 4, 5] (and NOT the wrong pre-v0.8.0 rearrangement
[4, 5, 1, 2, 3]), and rotating back restores [3, 4, 5, 1, 2]. -/
theorem C4_split_sound_witness :
    findSplitPoint [(3 : ℤ), 4, 5, 1, 2] = some 3 ∧
      ([(3 : ℤ), 4, 5, 1, 2].drop 3 ++ [(3 : ℤ), 4, 5, 1, 2].take 3 = [1, 2, 3, 4, 5]) ∧
      (equallySpacedIncr ([(3 : ℤ), 4, 5, 1, 2].drop 3 ++ [(3 : ℤ), 4, 5, 1, 2].take 3) = true ∧
        List.Chain' (· < ·) ([(3 : ℤ), 4, 5, 1, 2].drop 3 ++ [(3 : ℤ), 4, 5, 1, 2].take 3) ∧
        (([(3 : ℤ), 4, 5, 1, 2].drop 3 ++ [(3 : ℤ), 4, 5, 1, 2].take 3).drop
            ([(3 : ℤ), 4, 5, 1, 2].length - 3) ++
          ([(3 : ℤ), 4, 5, 1, 2].drop 3 ++ [(3 : ℤ), 4, 5, 1, 2].take 3).take
            ([(3 : ℤ), 4, 5, 1, 2].length - 3)) = [(3 : ℤ), 4, 5, 1, 2]) :=
  ⟨by decide, by decide, C4_split_sound [(3 : ℤ), 4, 5, 1, 2] 3 (by decide)⟩

end Regionmask

namespace Regionmask

/-! ## The Region Compositor (spec 4.5) -/

/-- Modelled from the spec: a region: a unique integer number together
with its outline (names and abbreviations play no role in the core). -/
structure Region where
  number : ℤ
  poly : Polygon

/-- Modelled from the spec: a region collection and its overlap
declaration: `some true` (declared overlapping), `some false` (declared
non-overlapping), `none` (unset, checked automatically since v0.11.0).
The region list is kept in ascending number order. -/
structure RegionCollection where
  regions : List Region
  overlap : Option Bool

/-- The boolean membership layer of one region over the query points. -/
def regionLayer (seam : ℚ) (r : Region) (pts : List Point) : List Bool :=
  pts.map (maskPointWrap seam r.poly)

/-- Modelled from the spec: overlap detection: some query point is
claimed by at least two regions of the collection (spec 4.5; whats_new
v0.11.0 "checks if regions are overlapping"). -/
def detectOverlap (seam : ℚ) (rc : RegionCollection) (pts : List Point) : Bool :=
  pts.any (fun p => 2 ≤ rc.regions.countP (fun r => maskPointWrap seam r.poly p))

/-- Modelled from the spec: 2-D categorical composition of one query
point: iterate the regions in ascending number order and store the
number of every matching region, overwriting any earlier match
(last-writer-wins, spec 4.5). -/
def compose2D (seam : ℚ) (regions : List Region) (p : Point) : Option ℤ :=
  regions.foldl (fun acc r => if maskPointWrap seam r.poly p then some r.number else acc) none

/-- The function name the overlap error directs the caller to. -/
def threeDname : String := "mask_3D"

/-- Modelled from the spec: the error raised for a 2-D categorical mask
of overlapping regions (whats_new v0.11.0: "Better error message when
trying to create 2D overlapping mask"). -/
def overlapErrMsg : String :=
  "Creating a 2D mask with overlapping regions yields wrong results. Please use " ++
    threeDname ++ " instead."

/-- Modelled from the spec: the 2-D categorical mask: declared
(overlap=true) or detected (overlap unset) overlapping regions are
refused with an error directing the caller to 3-D output; otherwise each
query point gets the number of its region, or none (spec 4.5). -/
def mask2D (seam : ℚ) (rc : RegionCollection) (pts : List Point) :
    Except String (List (Option ℤ)) :=
  if rc.overlap = some true then .error overlapErrMsg
  else if rc.overlap = none ∧ detectOverlap seam rc pts = true then .error overlapErrMsg
  else .ok (pts.map (compose2D seam rc.regions))

/-- Modelled from the spec: the 3-D mask: one boolean layer per region in
region order; with `drop = true` (the default) the layers containing no
matched grid point are omitted (mask_3D notebook). -/
def mask3D (seam : ℚ) (drop : Bool) (rc : RegionCollection) (pts : List Point) :
    List (ℤ × List Bool) :=
  if drop then
    (rc.regions.map (fun r => (r.number, regionLayer seam r pts))).filter
      (fun rl => rl.2.any id)
  else rc.regions.map (fun r => (r.number, regionLayer seam r pts))

/-- C8: requesting a 2-D categorical mask for a collection that is
declared overlapping (overlap=true) or whose overlap is unset and
detected always produces the fatal error whose message directs the
caller to use mask_3D (the message quotes that function name), and no
mask is produced. -/
theorem C8_overlap_rejected (seam : ℚ) (rc : RegionCollection) (pts : List Point)
    (h : rc.overlap = some true ∨ (rc.overlap = none ∧ detectOverlap seam rc pts = true)) :
    mask2D seam rc pts = Except.error overlapErrMsg ∧
      ∃ pre post : String, overlapErrMsg = pre ++ threeDname ++ post := by
  constructor
  · unfold mask2D
    rcases h with h | h
    · rw [if_pos h]
    · have hne : ¬ rc.overlap = some true := by
        rw [h.1]
        simp
      rw [if_neg hne, if_pos h]
  · refine ⟨"Creating a 2D mask with overlapping regions yields wrong results. Please use ",
      " instead.", ?_⟩
    rfl

/-- Two overlapping demonstration regions: a horizontal and a vertical
rectangle sharing the square (0,0)-(2,2), numbered 1 and 2. -/
def regionA : Region := ⟨1, rectPoly 0 0 4 2⟩

/-- See `regionA`. -/
def regionB : Region := ⟨2, rectPoly 0 0 2 4⟩

/-- A rectangle region claims any point that is epsilon-inside (or on the
upper/right boundary) whatever the seam is. -/
theorem maskPointWrap_rect (seam x0 y0 x1 y1 : ℚ) (hx : x0 < x1) (hy : y0 < y1)
    (p : Point) (h1 : x0 ≤ p.1 - EPSILON) (h2 : p.1 - EPSILON < x1)
    (h3 : y0 ≤ p.2 - EPSILON) (h4 : p.2 - EPSILON < y1) :
    maskPointWrap seam (rectPoly x0 y0 x1 y1) p = true := by
  unfold maskPointWrap
  have hc : (rectPoly x0 y0 x1 y1).containsPt (adjust p) = true := by
    unfold adjust
    rw [rectPoly_containsPt _ _ _ _ _ _ hx hy]
    simp [h1, h2, h3, h4]
  rw [shapelyContains_of_containsPt _ _ hc]
  simp

theorem regionA_contains : maskPointWrap 0 regionA.poly ((1 : ℚ), (1 : ℚ)) = true := by
  apply maskPointWrap_rect 0 0 0 4 2 (by norm_num) (by norm_num) _ <;> norm_num [EPSILON]

theorem regionB_contains : maskPointWrap 0 regionB.poly ((1 : ℚ), (1 : ℚ)) = true := by
  apply maskPointWrap_rect 0 0 0 2 4 (by norm_num) (by norm_num) _ <;> norm_num [EPSILON]

/-- C8 witness: the declared-overlap case at a concrete collection. -/
theorem C8_overlap_rejected_witness :
    (RegionCollection.mk [regionA, regionB] (some true)).overlap = some true ∧
      (mask2D 0 (RegionCollection.mk [regionA, regionB] (some true)) [((1 : ℚ), (1 : ℚ))]
          = Except.error overlapErrMsg ∧
        ∃ pre post : String, overlapErrMsg = pre ++ threeDname ++ post) :=
  ⟨rfl, C8_overlap_rejected 0 (RegionCollection.mk [regionA, regionB] (some true))
    [((1 : ℚ), (1 : ℚ))] (Or.inl rfl)⟩

/-- Overlap of a two-region collection is detected at a point claimed by
both regions. -/
theorem detectOverlap_pair (seam : ℚ) (r1 r2 : Region) (p : Point)
    (h1 : maskPointWrap seam r1.poly p = true) (h2 : maskPointWrap seam r2.poly p = true) :
    detectOverlap seam (RegionCollection.mk [r1, r2] none) [p] = true := by
  unfold detectOverlap
  simp [List.countP_cons, h1, h2]

/-- The unset-overlap 2-D mask of two regions sharing a point fails. -/
theorem mask2D_pair_err (seam : ℚ) (r1 r2 : Region) (p : Point)
    (h1 : maskPointWrap seam r1.poly p = true) (h2 : maskPointWrap seam r2.poly p = true) :
    mask2D seam (RegionCollection.mk [r1, r2] none) [p] = Except.error overlapErrMsg := by
  unfold mask2D
  rw [if_neg (by simp), if_pos ⟨rfl, detectOverlap_pair seam r1 r2 p h1 h2⟩]

/-- C5 (amended): for two regions r1, r2 (numbers ascending) and a query
point inside both: with overlap explicitly set to false the 2-D
categorical mask assigns the point the number of the higher-numbered
region r2 (last-writer-wins, silently discarding the lower-numbered
match), and a 3-D mask yields True for both regions at that point; with
default (unset) overlap the 2-D mask instead raises the overlap error
(overlap is checked per default since v0.11.0). -/
theorem C5_overlap_policy (seam : ℚ) (r1 r2 : Region) (p : Point)
    (h1 : maskPointWrap seam r1.poly p = true) (h2 : maskPointWrap seam r2.poly p = true) :
    mask2D seam (RegionCollection.mk [r1, r2] (some false)) [p]
        = Except.ok [some r2.number] ∧
      mask3D seam true (RegionCollection.mk [r1, r2] none) [p]
        = [(r1.number, [true]), (r2.number, [true])] ∧
      mask2D seam (RegionCollection.mk [r1, r2] none) [p] = Except.error overlapErrMsg := by
  refine ⟨?_, ?_, mask2D_pair_err seam r1 r2 p h1 h2⟩
  · unfold mask2D compose2D
    rw [if_neg (by simp), if_neg (by simp)]
    simp [h1, h2]
  · unfold mask3D regionLayer
    simp [h1, h2]

/-- C5 witness: the policy theorem at the concrete overlapping pair and
the point (1, 1) inside both. -/
theorem C5_overlap_policy_witness :
    maskPointWrap 0 regionA.poly ((1 : ℚ), (1 : ℚ)) = true ∧
      maskPointWrap 0 regionB.poly ((1 : ℚ), (1 : ℚ)) = true ∧
      (mask2D 0 (RegionCollection.mk [regionA, regionB] (some false)) [((1 : ℚ), (1 : ℚ))]
          = Except.ok [some regionB.number] ∧
        mask3D 0 true (RegionCollection.mk [regionA, regionB] none) [((1 : ℚ), (1 : ℚ))]
          = [(regionA.number, [true]), (regionB.number, [true])] ∧
        mask2D 0 (RegionCollection.mk [regionA, regionB] none) [((1 : ℚ), (1 : ℚ))]
          = Except.error overlapErrMsg) :=
  ⟨regionA_contains, regionB_contains,
    C5_overlap_policy 0 regionA regionB ((1 : ℚ), (1 : ℚ)) regionA_contains regionB_contains⟩

/-- C5 counterexample: with default (unset) overlap and the point (1,1)
inside both regions, the 2-D categorical mask does NOT assign the
higher-numbered region: it raises the overlap error instead. -/
theorem C5_counterexample :
    mask2D 0 (RegionCollection.mk [regionA, regionB] none) [((1 : ℚ), (1 : ℚ))]
        ≠ Except.ok [some regionB.number] ∧
      mask2D 0 (RegionCollection.mk [regionA, regionB] none) [((1 : ℚ), (1 : ℚ))]
        = Except.error overlapErrMsg := by
  have herr := mask2D_pair_err 0 regionA regionB ((1 : ℚ), (1 : ℚ))
    regionA_contains regionB_contains
  refine ⟨?_, herr⟩
  rw [herr]
  simp

end Regionmask

namespace Regionmask

/-! ## Mask results carry the caller's coordinates unchanged (C9) -/

/-- The returned mask structure: the coordinate arrays it carries
(mask.lon / mask.lat) and the per-row boolean values. -/
structure MaskResult where
  lon : List ℚ
  lat : List ℚ
  values : List (List Bool)

/-- Modelled from the spec: the full single-region mask computation over
a lon/lat grid.  The 1e-9 offset and the seam/pole remapping are applied
only to the internal test coordinates; the returned mask carries the
caller's coordinate arrays (whats_new v0.5.0 bugfix: the offset must not
appear in mask.lon / mask.lat; test np.all(np.equal(mask.lon, lon))). -/
def maskWithCoords (seam : ℚ) (poly : Polygon) (lon lat : List ℚ) : MaskResult :=
  ⟨lon, lat, lat.map (fun y => lon.map (fun x => maskPointWrap seam poly (x, y)))⟩

/-- C9: a mask computation is a pure function of its inputs: the
returned mask's lon and lat coordinate arrays are exactly the
caller-supplied arrays (not the offset ones), even though every value of
the mask is computed from coordinates shifted by the 1e-9 offset (or the
seam/pole remap).  In this embedding polygons and coordinate lists are
immutable values, which renders the read-only contract of spec 5. -/
theorem C9_coords_exact (seam : ℚ) (poly : Polygon) (lon lat : List ℚ) :
    (maskWithCoords seam poly lon lat).lon = lon ∧
      (maskWithCoords seam poly lon lat).lat = lat ∧
      (maskWithCoords seam poly lon lat).values =
        lat.map (fun y => lon.map (fun x =>
          shapelyContains poly (x - EPSILON, y - EPSILON) ||
            (isEdgePoint seam (x, y) && shapelyContains poly (edgeAdjust seam (x, y))))) := by
  refine ⟨rfl, rfl, ?_⟩
  unfold maskWithCoords maskPointWrap adjust
  rfl

/-! ## Dropping empty region layers (C10) -/

/-- C10: with drop=false the 3-D mask has exactly one layer per region of
the collection, and every unmatched region keeps an all-False layer;
with drop=true exactly the layers containing at least one matched grid
point survive (so the region dimension can shrink), and there is a
concrete collection for which it is strictly smaller than the number of
regions. -/
theorem C10_mask3D_drop (seam : ℚ) (rc : RegionCollection) (pts : List Point) :
    (mask3D seam false rc pts).length = rc.regions.length ∧
      (∀ rl ∈ mask3D seam false rc pts, rl.2.any id = false →
        rl.2.all (fun b => b == false) = true) ∧
      (∀ rl ∈ mask3D seam true rc pts, rl.2.any id = true) ∧
      (∀ rl ∈ mask3D seam false rc pts, rl.2.any id = true →
        rl ∈ mask3D seam true rc pts) ∧
      (mask3D seam true rc pts).length ≤ (mask3D seam false rc pts).length ∧
      ∃ (rc2 : RegionCollection) (pts2 : List Point),
        (mask3D seam true rc2 pts2).length < rc2.regions.length := by
  refine ⟨?_, ?_, ?_, ?_, ?_, ?_⟩
  · simp [mask3D]
  · intro rl _ hfalse
    rw [List.all_eq_true]
    intro b hb
    rw [List.any_eq_false] at hfalse
    have := hfalse b hb
    simp only [id_eq] at this
    simp [this]
  · intro rl hmem
    simp only [mask3D, if_pos rfl] at hmem
    exact (List.mem_filter.mp hmem).2
  · intro rl hmem hone
    simp only [mask3D, Bool.false_eq_true, if_neg (Bool.false_ne_true)] at hmem
    simp only [mask3D, if_pos rfl]
    exact List.mem_filter.mpr ⟨hmem, hone⟩
  · simp only [mask3D, if_pos rfl, Bool.false_eq_true, if_neg (Bool.false_ne_true)]
    exact List.length_filter_le _ _
  · refine ⟨RegionCollection.mk [⟨1, rectPoly 0 0 1 1⟩] none, [], ?_⟩
    simp [mask3D, regionLayer]

end Regionmask

namespace Regionmask

/-- C10 witness: the drop theorem applied at a concrete collection and
grid. -/
theorem C10_mask3D_drop_witness :
    (mask3D 0 false (RegionCollection.mk [regionA, regionB] none) [((1 : ℚ), (1 : ℚ))]).length
        = (RegionCollection.mk [regionA, regionB] none).regions.length ∧
      (∀ rl ∈ mask3D 0 false (RegionCollection.mk [regionA, regionB] none) [((1 : ℚ), (1 : ℚ))],
        rl.2.any id = false → rl.2.all (fun b => b == false) = true) ∧
      (∀ rl ∈ mask3D 0 true (RegionCollection.mk [regionA, regionB] none) [((1 : ℚ), (1 : ℚ))],
        rl.2.any id = true) ∧
      (∀ rl ∈ mask3D 0 false (RegionCollection.mk [regionA, regionB] none) [((1 : ℚ), (1 : ℚ))],
        rl.2.any id = true →
          rl ∈ mask3D 0 true (RegionCollection.mk [regionA, regionB] none) [((1 : ℚ), (1 : ℚ))]) ∧
      (mask3D 0 true (RegionCollection.mk [regionA, regionB] none) [((1 : ℚ), (1 : ℚ))]).length
        ≤ (mask3D 0 false (RegionCollection.mk [regionA, regionB] none) [((1 : ℚ), (1 : ℚ))]).length ∧
      ∃ (rc2 : RegionCollection) (pts2 : List Point),
        (mask3D 0 true rc2 pts2).length < rc2.regions.length :=
  C10_mask3D_drop 0 (RegionCollection.mk [regionA, regionB] none) [((1 : ℚ), (1 : ℚ))]

end Regionmask

namespace Regionmask

/-! ## Polygon interiors (holes) -/

/-- The demonstration polygon with a hole: outline (0,0)-(6,6) with the
interior ring (2,2)-(4,4) (cf. the Caspian Sea example of the method
notebook). -/
def holedPoly : Polygon := ⟨rectRing 0 0 6 6, [rectRing 2 2 4 4]⟩

/-- C7 (amended): a query point whose offset-adjusted position lies
inside a hole ring (in particular any point strictly inside the hole by
more than the 1e-9 offset) is excluded from the region by both backends;
and for an integer rectangle-with-rectangular-hole the edge rule of the
hole is the inverse of the exterior rule: membership is half-open
exclusive-min/inclusive-max for the exterior and its complement
inclusive-min/exclusive-max around the hole. -/
theorem C7_hole_rule (poly : Polygon) (h : Ring) (hmem : h ∈ poly.interiors)
    (p : Point) (hin : h.containsPt (adjust p) = true) :
    shapelyContains poly (adjust p) = false ∧
      (scanlineCell (rowCrossingXs (p.2 - EPSILON) poly.exterior) (p.1 - EPSILON) &&
        !(poly.interiors.any
          (fun hh => scanlineCell (rowCrossingXs (p.2 - EPSILON) hh) (p.1 - EPSILON)))) = false ∧
      (∀ ox0 oy0 ox1 oy1 hx0 hy0 hx1 hy1 x y : ℤ,
        ox0 < ox1 → oy0 < oy1 → hx0 < hx1 → hy0 < hy1 →
        (Polygon.mk (rectRing (ox0 : ℚ) (oy0 : ℚ) (ox1 : ℚ) (oy1 : ℚ))
            [rectRing (hx0 : ℚ) (hy0 : ℚ) (hx1 : ℚ) (hy1 : ℚ)]).containsPt
              (adjust ((x : ℚ), (y : ℚ)))
          = ((decide (ox0 < x) && decide (x ≤ ox1) && decide (oy0 < y) && decide (y ≤ oy1)) &&
              !(decide (hx0 < x) && decide (x ≤ hx1) && decide (hy0 < y) && decide (y ≤ hy1)))) := by
  have hany : poly.interiors.any (fun hh => hh.containsPt (adjust p)) = true :=
    List.any_eq_true.mpr ⟨h, hmem, hin⟩
  have hcont : poly.containsPt (adjust p) = false := by
    unfold Polygon.containsPt
    rw [hany]
    simp
  refine ⟨?_, ?_, ?_⟩
  · unfold shapelyContains
    rw [hcont]
    simp
  · have := ring_scanline_eq_containsPt poly (p.1 - EPSILON) (p.2 - EPSILON)
    rw [this]
    exact hcont
  · intro ox0 oy0 ox1 oy1 hx0 hy0 hx1 hy1 x y h1 h2 h3 h4
    unfold Polygon.containsPt adjust
    have hq1 : (ox0 : ℚ) < (ox1 : ℚ) := by exact_mod_cast h1
    have hq2 : (oy0 : ℚ) < (oy1 : ℚ) := by exact_mod_cast h2
    have hq3 : (hx0 : ℚ) < (hx1 : ℚ) := by exact_mod_cast h3
    have hq4 : (hy0 : ℚ) < (hy1 : ℚ) := by exact_mod_cast h4
    rw [List.any_cons, List.any_nil,
      rectRing_containsPt _ _ _ _ _ _ hq1 hq2, rectRing_containsPt _ _ _ _ _ _ hq3 hq4]
    rw [decide_eq_decide.mpr (int_le_sub_eps ox0 x), decide_eq_decide.mpr (int_sub_eps_lt x ox1),
      decide_eq_decide.mpr (int_le_sub_eps oy0 y), decide_eq_decide.mpr (int_sub_eps_lt y oy1),
      decide_eq_decide.mpr (int_le_sub_eps hx0 x), decide_eq_decide.mpr (int_sub_eps_lt x hx1),
      decide_eq_decide.mpr (int_le_sub_eps hy0 y), decide_eq_decide.mpr (int_sub_eps_lt y hy1)]
    · simp
    all_goals infer_instance

/-- C7 witness: the hole rule applied to the concrete polygon with a hole
at the point (3, 3) in the middle of the hole. -/
theorem C7_hole_rule_witness :
    (rectRing 2 2 4 4) ∈ holedPoly.interiors ∧
      (rectRing 2 2 4 4).containsPt (adjust ((3 : ℚ), (3 : ℚ))) = true ∧
      shapelyContains holedPoly (adjust ((3 : ℚ), (3 : ℚ))) = false := by
  have hmem : (rectRing 2 2 4 4) ∈ holedPoly.interiors := List.mem_singleton.mpr rfl
  have hin : (rectRing 2 2 4 4).containsPt (adjust ((3 : ℚ), (3 : ℚ))) = true := by
    unfold adjust
    rw [rectRing_containsPt _ _ _ _ _ _ (by norm_num) (by norm_num)]
    norm_num [EPSILON]
  exact ⟨hmem, hin,
    (C7_hole_rule holedPoly (rectRing 2 2 4 4) hmem ((3 : ℚ), (3 : ℚ)) hin).1⟩

/-- C7 counterexample: the claim as stated quantifies over every query
point strictly inside the hole; the point (2 + 10^-12, 3) is strictly
inside the hole ring (2,2)-(4,4) of the region, yet IS claimed by the
region, because its adjusted position falls below the hole's lower-x
boundary: the exclusion applies only beyond the 1e-9 offset. -/
theorem C7_counterexample :
    ((2 : ℚ) < 2 + 1 / 10 ^ 12 ∧ (2 : ℚ) + 1 / 10 ^ 12 < 4 ∧
        (2 : ℚ) < 3 ∧ (3 : ℚ) < 4) ∧
      shapelyContains holedPoly (adjust ((2 + 1 / 10 ^ 12 : ℚ), (3 : ℚ))) = true := by
  constructor
  · norm_num
  · have hc : holedPoly.containsPt (adjust ((2 + 1 / 10 ^ 12 : ℚ), (3 : ℚ))) = true := by
      unfold holedPoly Polygon.containsPt adjust
      rw [List.any_cons, List.any_nil,
        rectRing_containsPt _ _ _ _ _ _ (by norm_num) (by norm_num),
        rectRing_containsPt _ _ _ _ _ _ (by norm_num) (by norm_num)]
      norm_num [EPSILON]
    exact shapelyContains_of_containsPt _ _ hc

end Regionmask

namespace Regionmask

/-! ## The Fractional Overlap Estimator (spec 4.6) -/

/-- Modelled from the spec: the subsampled axis: N centered sub-points
per original cell and per dimension (spec 4.6; the frac-approx notebook:
regionmask "determines the mask with a grid that is 10 finer than the
original one and then averages the subsampled mask to the original
one"). -/
def subAxis (ax : Axis) (N : ℕ) : Axis :=
  ⟨ax.start - ax.step / 2 + ax.step / (2 * N), ax.step / N, ax.count * N⟩

/-- Modelled from the spec: the approximate fraction for original cell
(i, j): the boolean mask is computed on the subsampled grid with the
same (fast) pipeline, and the N x N sub-points belonging to the cell are
averaged to a value in [0, 1] (spec 4.6). -/
def fracApproxCell (N : ℕ) (poly : Polygon) (lon lat : Axis) (i j : ℕ) : ℚ :=
  (((List.range N).map (fun l =>
    (List.range N).countP (fun k =>
      ((maskRasterize poly (subAxis lon N) (subAxis lat N)).getD (j * N + l) []).getD
        (i * N + k) false))).sum : ℕ) / (N ^ 2 : ℚ)

/-- Modelled from the spec: the full approximate fractional mask of one
region: one rational per original cell (spec 4.6). -/
def mask3DfracApprox (N : ℕ) (poly : Polygon) (lon lat : Axis) : List (List ℚ) :=
  (List.range lat.count).map (fun j =>
    (List.range lon.count).map (fun i => fracApproxCell N poly lon lat i j))

/-- Reading the fine mask at a valid fine index gives the pointwise
backend test of the corresponding centered sub-point. -/
theorem getD_range_map {β : Type} (f : ℕ → β) (n m : ℕ) (hm : m < n) (d : β) :
    (((List.range n).map f).getD m d) = f m := by
  rw [List.getD_eq_getElem?_getD, List.getElem?_map, List.getElem?_range hm]
  rfl

theorem fine_index_lt (cnt N idx k : ℕ) (hi : idx < cnt) (hk : k < N) :
    idx * N + k < cnt * N := by
  have h1 : idx * N + k < (idx + 1) * N := by
    rw [Nat.add_mul, Nat.one_mul]
    exact Nat.add_lt_add_left hk _
  exact Nat.lt_of_lt_of_le h1 (Nat.mul_le_mul_right N hi)

/-- The fine-mask entry at cell (i,j), sub-index (k,l). -/
theorem fine_mask_entry (poly : Polygon) (lon lat : Axis) (N i j k l : ℕ)
    (hi : i < lon.count) (hj : j < lat.count) (hk : k < N) (hl : l < N) :
    ((maskRasterize poly (subAxis lon N) (subAxis lat N)).getD (j * N + l) []).getD
        (i * N + k) false
      = shapelyContains poly
          (adjust ((subAxis lon N).val (i * N + k), (subAxis lat N).val (j * N + l))) := by
  unfold maskRasterize
  rw [getD_range_map _ _ _ (by simpa [subAxis] using fine_index_lt lat.count N j l hj hl)]
  unfold rasterizeRow
  rw [getD_range_map _ _ _ (by simpa [subAxis] using fine_index_lt lon.count N i k hi hk)]
  exact rasterize_cell_eq_shapely poly _ _

end Regionmask

namespace Regionmask

/-- The value of a centered sub-point, in terms of the original cell. -/
theorem subAxis_val (ax : Axis) (N : ℕ) (hN : 0 < N) (i k : ℕ) :
    (subAxis ax N).val (i * N + k)
      = ax.val i - ax.step / 2 + (2 * k + 1) * ax.step / (2 * N) := by
  unfold subAxis Axis.val
  have hNQ : ((N : ℚ)) ≠ 0 := by positivity
  push_cast
  field_simp
  ring

/-- Count of integers in [0, N) at or above an integer threshold. -/
theorem countP_ge_int (N : ℕ) (c : ℤ) :
    ((List.range N).countP (fun k : ℕ => decide (c ≤ (k : ℤ))) : ℤ)
      = N - min (N : ℤ) (max 0 c) := by
  induction N with
  | zero => simp
  | succ n ih =>
    rw [List.range_succ, List.countP_append, List.countP_cons, List.countP_nil]
    by_cases hc : c ≤ (n : ℤ)
    · rw [if_pos (decide_eq_true hc)]
      rcases le_total c 0 with h0 | h0
      · rw [max_eq_left h0, min_eq_right (Int.natCast_nonneg n)] at ih
        rw [max_eq_left h0, min_eq_right (Int.natCast_nonneg (n + 1))]
        push_cast at ih ⊢
        omega
      · rw [max_eq_right h0, min_eq_right hc] at ih
        rw [max_eq_right h0, min_eq_right (by push_cast; omega : c ≤ ((n + 1 : ℕ) : ℤ))]
        push_cast at ih ⊢
        omega
    · rw [if_neg (by simp [hc])]
      rw [max_eq_right (by omega), min_eq_left (by omega)] at ih
      rw [max_eq_right (by omega), min_eq_left (by push_cast; omega)]
      push_cast at ih ⊢
      omega

/-- Clamp to the unit interval. -/
def clamp01 (q : ℚ) : ℚ := max 0 (min 1 q)

theorem abs_min_sub_min_le (a b c : ℚ) : |min a c - min b c| ≤ |a - b| := by
  have h3 := le_abs_self (a - b)
  have h4 := neg_abs_le (a - b)
  simp only [min_def]
  split_ifs <;> rw [abs_le] <;> constructor <;> linarith

theorem abs_max_sub_max_le (a b c : ℚ) : |max c a - max c b| ≤ |a - b| := by
  have h3 := le_abs_self (a - b)
  have h4 := neg_abs_le (a - b)
  simp only [max_def]
  split_ifs <;> rw [abs_le] <;> constructor <;> linarith

end Regionmask

namespace Regionmask

/-- The midpoint-rule error bound for a single threshold inside one cell:
the fraction of the N centered sub-points of the cell [a, a+d] whose
offset-adjusted position is at or beyond the threshold t differs from
the exact covered fraction of the cell by at most 1/(2N) plus the
offset contribution eps2/d. -/
theorem midpoint_count_bound (N : ℕ) (hN : 0 < N) (a d t eps2 : ℚ)
    (hd : 0 < d) (he : 0 ≤ eps2) :
    |(((List.range N).countP (fun k : ℕ =>
        decide (t ≤ a + (2 * k + 1) * d / (2 * N) - eps2))) : ℚ) / N
      - clamp01 ((a + d - t) / d)| ≤ 1 / (2 * N) + eps2 / d := by
  have hNQ : (0 : ℚ) < N := by exact_mod_cast hN
  have hNne : (N : ℚ) ≠ 0 := ne_of_gt hNQ
  have hdne : d ≠ 0 := ne_of_gt hd
  set w : ℚ := N * (t + eps2 - a) / d - 1 / 2 with hw
  have hpred : (fun k : ℕ => decide (t ≤ a + (2 * k + 1) * d / (2 * N) - eps2))
      = (fun k : ℕ => decide ((⌈w⌉ : ℤ) ≤ (k : ℤ))) := by
    funext k
    rw [decide_eq_decide, Int.ceil_le]
    push_cast
    have h2N : (0 : ℚ) < 2 * N := by positivity
    have e1 : (t ≤ a + (2 * (k : ℚ) + 1) * d / (2 * N) - eps2)
        ↔ t + eps2 - a ≤ (2 * (k : ℚ) + 1) * d / (2 * N) := by
      constructor <;> intro <;> linarith
    have e2 : (t + eps2 - a ≤ (2 * (k : ℚ) + 1) * d / (2 * N))
        ↔ (t + eps2 - a) * (2 * N) ≤ (2 * (k : ℚ) + 1) * d := le_div_iff h2N
    have e3 : (w ≤ (k : ℚ)) ↔ N * (t + eps2 - a) / d ≤ (k : ℚ) + 1 / 2 := by
      rw [hw]
      constructor <;> intro <;> linarith
    have e4 : (N * (t + eps2 - a) / d ≤ (k : ℚ) + 1 / 2)
        ↔ N * (t + eps2 - a) ≤ ((k : ℚ) + 1 / 2) * d := div_le_iff hd
    rw [e1, e2, e3, e4]
    constructor <;> intro h <;> nlinarith [h]
  rw [hpred]
  have hcountQ : (((List.range N).countP (fun k : ℕ => decide ((⌈w⌉ : ℤ) ≤ (k : ℤ)))) : ℚ)
      = (N : ℚ) - min (N : ℚ) (max 0 ((⌈w⌉ : ℤ) : ℚ)) := by
    exact_mod_cast countP_ge_int N ⌈w⌉
  rw [hcountQ]
  set u : ℚ := N * (t - a) / d with hu
  set v : ℚ := N * (a + d - t) / d with hv
  have hclamp : (N : ℚ) * clamp01 ((a + d - t) / d) = max 0 (min (N : ℚ) v) := by
    unfold clamp01
    rw [mul_max_of_nonneg _ _ (le_of_lt hNQ), mul_min_of_nonneg _ _ (le_of_lt hNQ),
      mul_zero, mul_one, hv, ← mul_div_assoc]
  have huv : u + v = N := by
    rw [hu, hv]
    field_simp
    ring
  have hcomm : max 0 (min (N : ℚ) v) = (N : ℚ) - min (N : ℚ) (max 0 u) := by
    rcases le_total v 0 with h1 | h1
    · have hu1 : (N : ℚ) ≤ u := by linarith
      rw [min_eq_right (le_trans h1 (le_of_lt hNQ)), max_eq_left h1,
        max_eq_right (le_trans (le_of_lt hNQ) hu1), min_eq_left hu1]
      linarith
    · rcases le_total (N : ℚ) v with h2 | h2
      · have hu2 : u ≤ 0 := by linarith
        rw [min_eq_left h2, max_eq_right (le_of_lt hNQ), max_eq_left hu2,
          min_eq_right (le_of_lt hNQ)]
        linarith
      · have hu3 : 0 ≤ u := by linarith
        have hu4 : u ≤ (N : ℚ) := by linarith
        rw [min_eq_right h2, max_eq_right h1, max_eq_right hu3, min_eq_right hu4]
        linarith
  set c : ℚ := ((⌈w⌉ : ℤ) : ℚ) with hc
  clear_value w u v c
  have hfac : ((N : ℚ) - min (N : ℚ) (max 0 c)) / N - clamp01 ((a + d - t) / d)
      = (((N : ℚ) - min (N : ℚ) (max 0 c)) - (N : ℚ) * clamp01 ((a + d - t) / d)) / N := by
    field_simp
  rw [hfac, abs_div, abs_of_pos hNQ]
  have hnum : |((N : ℚ) - min (N : ℚ) (max 0 c)) - (N : ℚ) * clamp01 ((a + d - t) / d)|
      ≤ 1 / 2 + N * eps2 / d := by
    rw [hclamp, hcomm]
    have hstep1 : |((N : ℚ) - min (N : ℚ) (max 0 c)) - ((N : ℚ) - min (N : ℚ) (max 0 u))|
        = |min (N : ℚ) (max 0 u) - min (N : ℚ) (max 0 c)| := by
      congr 1
      ring
    rw [hstep1]
    have hlip1 : |min (N : ℚ) (max 0 u) - min (N : ℚ) (max 0 c)|
        ≤ |max 0 u - max 0 c| := by
      have := abs_min_sub_min_le (max 0 u) (max 0 c) (N : ℚ)
      calc |min (N : ℚ) (max 0 u) - min (N : ℚ) (max 0 c)|
          = |min (max 0 u) (N : ℚ) - min (max 0 c) (N : ℚ)| := by rw [min_comm (N : ℚ), min_comm (N : ℚ)]
        _ ≤ |max 0 u - max 0 c| := this
    have hlip2 : |max 0 u - max 0 c| ≤ |u - c| := abs_max_sub_max_le u c 0
    have hceil : |u - c| ≤ 1 / 2 + N * eps2 / d := by
      have h1 : w ≤ c := by
        rw [hc]
        exact_mod_cast Int.le_ceil w
      have h2 : c < w + 1 := by
        rw [hc]
        exact_mod_cast Int.ceil_lt_add_one w
      have hE : 0 ≤ N * eps2 / d := by positivity
      have hwu : u = w + 1 / 2 - N * eps2 / d := by
        rw [hu, hw]
        field_simp
        ring
      rw [abs_le]
      constructor <;> linarith [h1, h2, hE, hwu]
    linarith
  calc |((N : ℚ) - min (N : ℚ) (max 0 c)) - (N : ℚ) * clamp01 ((a + d - t) / d)| / N
      ≤ (1 / 2 + N * eps2 / d) / N :=
        div_le_div_of_nonneg_right hnum (le_of_lt hNQ)
    _ = 1 / (2 * N) + eps2 / d := by
        field_simp
        ring

end Regionmask

namespace Regionmask

/-- The bounding-box prune never changes the exact result. -/
theorem shapelyContains_eq_containsPt (poly : Polygon) (p : Point) :
    shapelyContains poly p = poly.containsPt p := by
  cases hc : poly.containsPt p with
  | false =>
    unfold shapelyContains
    rw [hc]
    simp
  | true => exact shapelyContains_of_containsPt poly p hc

/-- The averaged cell value counts exactly the centered sub-points of the
cell that the pipeline assigns to the region. -/
theorem fracApproxCell_eq_subcounts (N : ℕ) (hN : 0 < N) (poly : Polygon)
    (lon lat : Axis) (i j : ℕ) (hi : i < lon.count) (hj : j < lat.count) :
    fracApproxCell N poly lon lat i j
      = (((List.range N).map (fun l : ℕ =>
          (List.range N).countP (fun k : ℕ =>
            shapelyContains poly (adjust
              (lon.val i - lon.step / 2 + (2 * (k : ℚ) + 1) * lon.step / (2 * N),
                lat.val j - lat.step / 2 + (2 * (l : ℚ) + 1) * lat.step / (2 * N)))))).sum : ℕ)
          / (N ^ 2 : ℚ) := by
  unfold fracApproxCell
  have hmap : (List.range N).map (fun l =>
        (List.range N).countP (fun k =>
          ((maskRasterize poly (subAxis lon N) (subAxis lat N)).getD (j * N + l) []).getD
            (i * N + k) false))
      = (List.range N).map (fun l : ℕ =>
          (List.range N).countP (fun k : ℕ =>
            shapelyContains poly (adjust
              (lon.val i - lon.step / 2 + (2 * (k : ℚ) + 1) * lon.step / (2 * N),
                lat.val j - lat.step / 2 + (2 * (l : ℚ) + 1) * lat.step / (2 * N))))) := by
    apply List.map_congr_left
    intro l hl
    apply List.countP_congr
    intro k hk
    rw [fine_mask_entry poly lon lat N i j k l hi hj
        (List.mem_range.mp hk) (List.mem_range.mp hl),
      subAxis_val lon N hN i k, subAxis_val lat N hN j l]
  rw [hmap]

/-- The averaged cell value lies in the unit interval. -/
theorem fracApproxCell_bounds (N : ℕ) (hN : 0 < N) (poly : Polygon)
    (lon lat : Axis) (i j : ℕ) :
    0 ≤ fracApproxCell N poly lon lat i j ∧ fracApproxCell N poly lon lat i j ≤ 1 := by
  unfold fracApproxCell
  constructor
  · positivity
  · rw [div_le_one (by positivity)]
    have hsum : ((List.range N).map (fun l =>
        (List.range N).countP (fun k =>
          ((maskRasterize poly (subAxis lon N) (subAxis lat N)).getD (j * N + l) []).getD
            (i * N + k) false))).sum ≤ N * N := by
      have hb := List.sum_le_card_nsmul ((List.range N).map (fun l =>
        (List.range N).countP (fun k =>
          ((maskRasterize poly (subAxis lon N) (subAxis lat N)).getD (j * N + l) []).getD
            (i * N + k) false))) N ?_
      · simpa [List.length_map, List.length_range, Nat.smul_one_eq_cast] using hb
      · intro x hx
        obtain ⟨l, _, hval⟩ := List.mem_map.mp hx
        rw [← hval]
        calc (List.range N).countP _ ≤ (List.range N).length := List.countP_le_length _
          _ = N := List.length_range N
    have hsum2 : ((List.range N).map (fun l =>
        (List.range N).countP (fun k =>
          ((maskRasterize poly (subAxis lon N) (subAxis lat N)).getD (j * N + l) []).getD
            (i * N + k) false))).sum ≤ N ^ 2 := by
      rw [pow_two]
      exact hsum
    exact_mod_cast hsum2

end Regionmask

namespace Regionmask

/-- For a rectangle whose left edge is the only boundary near the cell
(i, j) - the cell lies vertically inside the rectangle and the right
edge is beyond it - the averaged cell value differs from the exact
covered fraction of the cell by at most 1/(2N) plus the offset
contribution EPSILON / step. -/
theorem rect_cellfrac_bound (N : ℕ) (hN : 0 < N) (lon lat : Axis)
    (i j : ℕ) (hi : i < lon.count) (hj : j < lat.count)
    (t y0 x1 y1 : ℚ) (hdx : 0 < lon.step) (htx : t < x1) (hy01 : y0 < y1)
    (hys : ∀ l : ℕ, l < N →
      y0 ≤ lat.val j - lat.step / 2 + (2 * (l : ℚ) + 1) * lat.step / (2 * N) - EPSILON ∧
        lat.val j - lat.step / 2 + (2 * (l : ℚ) + 1) * lat.step / (2 * N) - EPSILON < y1)
    (hxs : ∀ k : ℕ, k < N →
      lon.val i - lon.step / 2 + (2 * (k : ℚ) + 1) * lon.step / (2 * N) - EPSILON < x1) :
    |fracApproxCell N (rectPoly t y0 x1 y1) lon lat i j
        - clamp01 ((lon.val i + lon.step / 2 - t) / lon.step)| ≤
      1 / (2 * N) + EPSILON / lon.step := by
  rw [fracApproxCell_eq_subcounts N hN _ lon lat i j hi hj]
  have hrow : ∀ l ∈ List.range N,
      (List.range N).countP (fun k : ℕ =>
        shapelyContains (rectPoly t y0 x1 y1) (adjust
          (lon.val i - lon.step / 2 + (2 * (k : ℚ) + 1) * lon.step / (2 * N),
            lat.val j - lat.step / 2 + (2 * (l : ℚ) + 1) * lat.step / (2 * N))))
      = (List.range N).countP (fun k : ℕ =>
          decide (t ≤ lon.val i - lon.step / 2 + (2 * (k : ℚ) + 1) * lon.step / (2 * N)
            - EPSILON)) := by
    intro l hl
    apply List.countP_congr
    intro k hk
    have hx := hxs k (List.mem_range.mp hk)
    have hy1 := (hys l (List.mem_range.mp hl)).1
    have hy2 := (hys l (List.mem_range.mp hl)).2
    rw [shapelyContains_eq_containsPt]
    unfold adjust
    rw [rectPoly_containsPt t y0 x1 y1 _ _ htx hy01]
    simp [hx, hy1, hy2]
  have hmapc : (List.range N).map (fun l : ℕ =>
      (List.range N).countP (fun k : ℕ =>
        shapelyContains (rectPoly t y0 x1 y1) (adjust
          (lon.val i - lon.step / 2 + (2 * (k : ℚ) + 1) * lon.step / (2 * N),
            lat.val j - lat.step / 2 + (2 * (l : ℚ) + 1) * lat.step / (2 * N)))))
      = List.replicate N ((List.range N).countP (fun k : ℕ =>
          decide (t ≤ lon.val i - lon.step / 2 + (2 * (k : ℚ) + 1) * lon.step / (2 * N)
            - EPSILON))) := by
    rw [List.map_congr_left hrow]
    rw [List.map_const', List.length_range]
  rw [hmapc, List.sum_replicate, smul_eq_mul]
  have hNQ : (0 : ℚ) < N := by exact_mod_cast hN
  have hval : ((N * (List.range N).countP (fun k : ℕ =>
      decide (t ≤ lon.val i - lon.step / 2 + (2 * (k : ℚ) + 1) * lon.step / (2 * N)
        - EPSILON)) : ℕ) : ℚ) / (N ^ 2 : ℚ)
      = ((List.range N).countP (fun k : ℕ =>
          decide (t ≤ lon.val i - lon.step / 2 + (2 * (k : ℚ) + 1) * lon.step / (2 * N)
            - EPSILON)) : ℚ) / N := by
    push_cast
    field_simp
    ring
  rw [hval]
  have hmb := midpoint_count_bound N hN (lon.val i - lon.step / 2) lon.step t EPSILON
    hdx (le_of_lt eps_pos)
  have harg : (lon.val i - lon.step / 2 + lon.step - t) / lon.step
      = (lon.val i + lon.step / 2 - t) / lon.step := by
    ring_nf
  rw [harg] at hmb
  exact hmb

end Regionmask

namespace Regionmask

/-- A one-cell unit axis used for concrete instantiations. -/
def unitAxis : Axis := ⟨0, 1, 1⟩

/-- C6: for equally spaced axes and subsampling factor N (default 10),
the estimator averages the boolean mask computed by the same pipeline on
the N-times finer grid of centered sub-points: every cell value lies in
[0, 1] and equals the number of the cell's N x N centered sub-points
assigned to the region divided by N^2; and whenever only the left edge
of a rectangular region crosses the cell, the value differs from the
exact covered fraction of the cell by at most 1/(2N) + EPSILON/step,
which for the default N = 10 is 0.05 up to the negligible offset
contribution - i.e. roughly 0.05 per cell. -/
theorem C6_frac_approx (N : ℕ) (hN : 0 < N) (poly : Polygon) (lon lat : Axis)
    (i j : ℕ) (hi : i < lon.count) (hj : j < lat.count) :
    (0 ≤ fracApproxCell N poly lon lat i j ∧ fracApproxCell N poly lon lat i j ≤ 1) ∧
      fracApproxCell N poly lon lat i j
        = (((List.range N).map (fun l : ℕ =>
            (List.range N).countP (fun k : ℕ =>
              shapelyContains poly (adjust
                (lon.val i - lon.step / 2 + (2 * (k : ℚ) + 1) * lon.step / (2 * N),
                  lat.val j - lat.step / 2 + (2 * (l : ℚ) + 1) * lat.step / (2 * N)))))).sum : ℕ)
            / (N ^ 2 : ℚ) ∧
      (∀ t y0 x1 y1 : ℚ, 0 < lon.step → t < x1 → y0 < y1 →
        (∀ l : ℕ, l < N →
          y0 ≤ lat.val j - lat.step / 2 + (2 * (l : ℚ) + 1) * lat.step / (2 * N) - EPSILON ∧
            lat.val j - lat.step / 2 + (2 * (l : ℚ) + 1) * lat.step / (2 * N) - EPSILON < y1) →
        (∀ k : ℕ, k < N →
          lon.val i - lon.step / 2 + (2 * (k : ℚ) + 1) * lon.step / (2 * N) - EPSILON < x1) →
        |fracApproxCell N (rectPoly t y0 x1 y1) lon lat i j
            - clamp01 ((lon.val i + lon.step / 2 - t) / lon.step)|
          ≤ 1 / (2 * N) + EPSILON / lon.step) :=
  ⟨fracApproxCell_bounds N hN poly lon lat i j,
    fracApproxCell_eq_subcounts N hN poly lon lat i j hi hj,
    fun t y0 x1 y1 hdx htx hy01 hys hxs =>
      rect_cellfrac_bound N hN lon lat i j hi hj t y0 x1 y1 hdx htx hy01 hys hxs⟩

/-- C6 witness: the estimator theorem applied at the default subsampling
factor N = 10, the globe-spanning region and a one-cell unit grid. -/
theorem C6_frac_approx_witness :
    0 < 10 ∧ 0 < unitAxis.count ∧
      (0 ≤ fracApproxCell 10 globalPoly unitAxis unitAxis 0 0 ∧
        fracApproxCell 10 globalPoly unitAxis unitAxis 0 0 ≤ 1) :=
  ⟨by decide, by decide,
    (C6_frac_approx 10 (by decide) globalPoly unitAxis unitAxis 0 0
      (by decide) (by decide)).1⟩

end Regionmask

namespace Regionmask

/-- C6 counterexample: the blanket accuracy reading fails: a strip of
width 0.08 placed between the sub-points of a unit cell (two region
edges inside one cell) is missed entirely by the N = 10 subsampling: the
estimator reports 0 while the exact covered fraction of the cell is
2/25 = 0.08 > 0.05 + EPSILON - more than the claimed bound. -/
theorem C6_counterexample :
    fracApproxCell 10 (rectPoly (13 / 50) (-10) (17 / 50) 10) unitAxis unitAxis 0 0 = 0 ∧
      (17 / 50 - 13 / 50 : ℚ) / 1 = 2 / 25 ∧
      ¬ (|(0 : ℚ) - 2 / 25| ≤ 1 / 20 + EPSILON / 1) := by
  refine ⟨?_, by norm_num, ?_⟩
  · rw [fracApproxCell_eq_subcounts 10 (by norm_num) _ unitAxis unitAxis 0 0
      (by norm_num [unitAxis]) (by norm_num [unitAxis])]
    have hall : ∀ l ∈ List.range 10,
        ((List.range 10).countP (fun k : ℕ =>
          shapelyContains (rectPoly (13 / 50) (-10) (17 / 50) 10) (adjust
            (unitAxis.val 0 - unitAxis.step / 2 + (2 * (k : ℚ) + 1) * unitAxis.step / (2 * (10 : ℕ)),
              unitAxis.val 0 - unitAxis.step / 2 + (2 * (l : ℚ) + 1) * unitAxis.step / (2 * (10 : ℕ))))))
        = 0 := by
      intro l hl
      rw [List.countP_eq_zero]
      intro k hk
      rw [shapelyContains_eq_containsPt]
      unfold adjust
      rw [rectPoly_containsPt _ _ _ _ _ _ (by norm_num) (by norm_num)]
      have hk10 : k < 10 := List.mem_range.mp hk
      interval_cases k <;>
        simp only [Bool.and_eq_true, decide_eq_true_eq, not_and] <;>
        norm_num [unitAxis, Axis.val, EPSILON]
    rw [List.map_congr_left hall, List.map_const', List.length_range]
    simp
  · rw [zero_sub, abs_neg, abs_of_nonneg (by norm_num : (0 : ℚ) ≤ 2 / 25)]
    norm_num [EPSILON]

end Regionmask
